import Mathlib

/-!
# Lead-Radar unified pipeline: shallow embedding and verification

This file embeds the core data model and operations of
`lead_radar_unified.py` (Lead Store & merge engine, scorer, scan
orchestration, deep-enrichment accumulators, HTTP fetch policy and job
endpoints) as executable Lean definitions, and proves the specification
claims about them.

Modelling conventions:
* Python `str` values are modelled as `String` (kernel-level `List Char`),
  and the Python string methods used by the code (`strip`, `lower`,
  `upper`, `replace`, `strip("/")`, substring `in`) are re-implemented
  on `List Char` with Python's semantics.
* Python floats only ever hold the constants 0.90 / 0.85 / 0.75 in the
  scored pipeline; they are modelled as exact rationals (`ℚ`).  For these
  constants every arithmetic step performed by the code is exact in both
  float and rational arithmetic, so the models agree.
* Python dicts keyed by strings (`LEADS`, `JOBS`, HTTP caches) are
  modelled as functions `String → Option _`.
* Wall-clock time, threads and the network are replaced by explicit
  parameters (task outcome lists, fetch oracles, an explicit `now`).
-/

namespace LeadRadar

/-! ## Python string primitives (on `List Char`) -/

/-- Python `str.isspace` characters relevant to `str.strip()` (ASCII). -/
def pyIsSpace (c : Char) : Bool :=
  c == ' ' || c == '\t' || c == '\n' || c == '\r' || c == '\x0b' || c == '\x0c'

/-- Python `s.strip()`: drop whitespace from both ends. -/
def pyTrim (s : List Char) : List Char :=
  ((s.dropWhile pyIsSpace).reverse.dropWhile pyIsSpace).reverse

/-- Python `s.lower()` (ASCII case mapping, which is all the code relies on). -/
def pyLower (s : List Char) : List Char := s.map Char.toLower

/-- Python `s.upper()` (ASCII case mapping). -/
def pyUpper (s : List Char) : List Char := s.map Char.toUpper

/-- The characters of an optional string; Python `(x or "")` for `x : str | None`. -/
def optChars : Option String → List Char
  | none => []
  | some s => s.data

/-- Python truthiness of an optional string: `None` and `""` are falsy. -/
def pyTruthyStr : Option String → Bool
  | none => false
  | some s => !(s == "")

/-- The pattern `"www."` removed by `company_id_from`. -/
def wwwPat : List Char := ['w', 'w', 'w', '.']

/-- Python `s.replace("www.", "")`: remove every occurrence, scanning left
    to right without rescanning produced text. -/
def replaceWwwAll : List Char → List Char
  | [] => []
  | [c] => [c]
  | [c, d] => [c, d]
  | [c, d, e] => [c, d, e]
  | c :: d :: e :: f :: t =>
    if c = 'w' ∧ d = 'w' ∧ e = 'w' ∧ f = '.' then replaceWwwAll t
    else c :: replaceWwwAll (d :: e :: f :: t)

/-- Python `s.replace(" ", "-")` (single-character pattern: a plain map). -/
def replaceSpaceDash (s : List Char) : List Char :=
  s.map fun c => if c = ' ' then '-' else c

/-- Drop a single leading `"www."` if present (the spec's reading of the
    normalisation; the code removes every occurrence). -/
def dropWwwHead (s : List Char) : List Char :=
  if wwwPat.isPrefixOf s then s.drop 4 else s

/-- Drop trailing `'/'` characters. -/
def stripTrailSlash (s : List Char) : List Char :=
  (s.reverse.dropWhile (fun c => c == '/')).reverse

/-- The trailing run of `'/'` characters of `s`. -/
def slashRunOf (s : List Char) : List Char :=
  (s.reverse.takeWhile (fun c => c == '/')).reverse

/-- Python `s.strip("/")`: drop `'/'` from both ends. -/
def stripBothSlash (s : List Char) : List Char :=
  (stripTrailSlash s).dropWhile (fun c => c == '/')

/-- The code's host normalisation: `host.replace("www.", "").strip("/")`. -/
def codeHostNorm (h : List Char) : List Char := stripBothSlash (replaceWwwAll h)

/-- The spec's reading of the host normalisation: strip one leading
    `"www."` and the trailing slashes. -/
def claimHostNorm (h : List Char) : List Char := stripTrailSlash (dropWwwHead h)

/-- Python `pat in s` (substring containment). -/
def containsSub (pat : List Char) : List Char → Bool
  | [] => pat.isEmpty
  | c :: t => pat.isPrefixOf (c :: t) || containsSub pat t

/-- Substring containment on `String` (Python `pat in s`). -/
def strContains (s pat : String) : Bool := containsSub pat.data s.data

/-! ## A model of `urllib.parse.urlparse(...).netloc`

`urlparse` yields a non-empty `netloc` only when the URL (after an
optional `scheme:`) begins with `"//"`; the netloc then extends to the
next `'/'`, `'?'` or `'#'`.  The model below reproduces this for the URL
shapes the pipeline handles. -/

/-- Characters allowed in a URL scheme (after the leading letter;
    the inputs reaching this model are already lower-cased). -/
def isSchemeChar (c : Char) : Bool :=
  c.isAlpha || c.isDigit || c == '+' || c == '-' || c == '.'

/-- Take characters up to the first netloc delimiter. -/
def takeNetlocChars (s : List Char) : List Char :=
  s.takeWhile fun c => !(c == '/' || c == '?' || c == '#')

/-- Model of `urlparse(s).netloc`. -/
def urlNetloc (s : List Char) : List Char :=
  let pre := s.takeWhile (fun c => !(c == ':'))
  let rest := s.dropWhile (fun c => !(c == ':'))
  if pre ≠ [] ∧ pre.all isSchemeChar ∧ rest.take 3 = [':', '/', '/'] then
    takeNetlocChars (rest.drop 3)
  else if s.take 2 = ['/', '/'] then takeNetlocChars (s.drop 2)
  else []

/-- Python `urlparse(base).netloc or base`. -/
def netlocOrBase (base : List Char) : List Char :=
  let n := urlNetloc base
  if n = [] then base else n

/-! ## The company identity key (`company_id_from`)

The Python function builds
`raw = f"{host}|{name.strip().lower()}|{country.upper()}"`
and returns `hashlib.sha1(raw.encode()).hexdigest()[:16]`.  The SHA-1
digest is a fixed deterministic function of `raw`; we abstract the
(injective-by-intent) hex-digest truncation and use the pre-image key
`raw` itself as the identifier, so identity and distinctness of ids
reduce to identity and distinctness of keys. -/

/-- The key characters from which `company_id_from` derives the id. -/
def companyKeyChars (website : Option String) (name country : String) : List Char :=
  let base := pyLower (pyTrim (optChars website))
  let host :=
    if base ≠ [] then codeHostNorm (netlocOrBase base)
    else replaceSpaceDash (pyLower (pyTrim name.data))
  host ++ ['|'] ++ pyLower (pyTrim name.data) ++ ['|'] ++ pyUpper country.data

/-- Model of `company_id_from(website, name, country)` (see the note above
    on the abstracted SHA-1 truncation). -/
def company_id_from (website : Option String) (name country : String) : String :=
  String.mk (companyKeyChars website name country)

/-! ## Data model -/

/-- Adapter source names (the `SourceName` literal type). -/
inductive Src
  | ETG | UR | SIEMENS | BECKHOFF | PI_PROFINET | ODVA_ENIP | ROS2
deriving DecidableEq, Repr

/-- One piece of adapter evidence (`SourceHit`). -/
structure SourceHit where
  name : Src
  strength : ℚ
  source_url : Option String
deriving DecidableEq, Repr

/-- A scraped contact (`Contact`). -/
structure Contact where
  name : Option String := none
  role : Option String := none
  email : Option String := none
  linkedin : Option String := none
  page_url : Option String := none
deriving DecidableEq, Repr

/-- Accumulated company context (`CompanyContext`). -/
structure CompanyContext where
  size_hint : Option String := none
  sectors : List String := []
  technologies : List String := []
  partners : List String := []
  recent_projects : List String := []
  languages : List String := []
deriving DecidableEq, Repr

/-- The central `Lead` entity (timestamps omitted: no claim mentions
    `last_seen`). -/
structure Lead where
  company_id : String
  company_name : String
  country : String
  website : Option String := none
  segment : Option String := none
  stack_tags : List String := []
  sources : List SourceHit := []
  score : ℤ := 0
  priority_class : Option String := none
  contact_email : Option String := none
  contact_url : Option String := none
  phone : Option String := none
  reason : Option String := none
  pitch : Option String := none
  contacts : List Contact := []
  context : Option CompanyContext := none
deriving DecidableEq, Repr

/-- An adapter's raw candidate record (`RawCompany`; `meta` is unused by
    the merge engine and omitted). -/
structure RawCompany where
  name : String
  country : String
  website : Option String := none
  source : Src
  source_url : Option String := none
deriving DecidableEq, Repr

/-- The in-memory `LEADS` dict. -/
def Store := String → Option Lead

/-- The empty lead store. -/
def emptyStore : Store := fun _ => none

/-! ## Merge engine (`upsert_lead_from_raw`) -/

/-- Source-implied default segment (the sequential `if` chain). -/
def defaultSegment : Src → String
  | .SIEMENS => "SI"
  | .UR => "SI"
  | _ => "OEM"

/-- Source-implied base stack tags. -/
def baseStacks : Src → List String
  | .ETG => ["EtherCAT"]
  | .SIEMENS => ["PROFINET", "TIA"]
  | .UR => ["UR"]
  | .BECKHOFF => ["EtherCAT", "TwinCAT"]
  | .PI_PROFINET => ["PROFINET"]
  | _ => []

/-- Source trust strength: `0.90` for the primary directories, else `0.85`. -/
def srcStrength : Src → ℚ
  | .ETG => 9/10
  | .SIEMENS => 9/10
  | .BECKHOFF => 9/10
  | .PI_PROFINET => 9/10
  | _ => 17/20

/-- The `SourceHit` appended for a candidate. -/
def mkHit (rc : RawCompany) : SourceHit :=
  { name := rc.source, strength := srcStrength rc.source, source_url := rc.source_url }

/-- The company id computed for a candidate. -/
def companyIdOf (rc : RawCompany) : String :=
  company_id_from rc.website rc.name rc.country

/-- Guarded union-append: `for t in ts: if t not in acc: acc.append(t)`. -/
def unionAppend (acc ts : List String) : List String :=
  ts.foldl (fun a t => if t ∈ a then a else a ++ [t]) acc

/-- The lead created by `upsert_lead_from_raw` when the id is absent:
    seeded with the source-implied default segment, base tags and one
    `SourceHit`. -/
def newLeadOf (rc : RawCompany) (cid : String) : Lead :=
  { company_id := cid, company_name := rc.name, country := rc.country,
    website := rc.website, segment := some (defaultSegment rc.source),
    stack_tags := baseStacks rc.source, sources := [mkHit rc] }

/-- The in-place update `upsert_lead_from_raw` performs on an existing
    lead: append the new `SourceHit` (even if duplicate), fill `website`
    only if currently null (and the candidate's is truthy), union the
    source-implied tags, fill `segment` only if currently null. -/
def mergeLead (l : Lead) (rc : RawCompany) : Lead :=
  { l with
    sources := l.sources ++ [mkHit rc],
    website := if l.website = none ∧ pyTruthyStr rc.website then rc.website else l.website,
    stack_tags := unionAppend l.stack_tags (baseStacks rc.source),
    segment := if l.segment = none then some (defaultSegment rc.source) else l.segment }

/-- Model of `upsert_lead_from_raw` on the `LEADS` store. -/
def upsert_lead_from_raw (st : Store) (rc : RawCompany) : Store :=
  let cid := companyIdOf rc
  let updated : Lead :=
    match st cid with
    | none => newLeadOf rc cid
    | some l => mergeLead l rc
  fun k => if k = cid then some updated else st k

/-- Sequential application of `upsert_lead_from_raw`. -/
def upsertAll (st : Store) (rcs : List RawCompany) : Store :=
  rcs.foldl upsert_lead_from_raw st

/-! ## Scorer (`score` endpoint body and helpers) -/

/-- The `WEIGHTS["stacks"]` table (`.get(t, 0)`). -/
def stackWeight (t : String) : ℕ :=
  if t = "EtherCAT" then 25
  else if t = "PROFINET" then 20
  else if t = "EtherNet/IP" then 18
  else if t = "ROS2" then 12
  else if t = "UR" then 10
  else if t = "TwinCAT" then 8
  else if t = "TIA" then 8
  else if t = "Studio5000" then 8
  else 0

/-- Model of `stack_points`: sum of table weights over the tag list. -/
def stack_points (l : Lead) : ℕ :=
  (l.stack_tags.map stackWeight).sum

/-- Python `max((s.strength for s in sources), default=0)`. -/
def maxStrength : List SourceHit → ℚ
  | [] => 0
  | s :: t => t.foldl (fun a x => max a x.strength) s.strength

/-- Python `int(q)` on a numeric value: truncation toward zero. -/
def pyIntTrunc (q : ℚ) : ℤ :=
  if 0 ≤ q then ⌊q⌋ else -⌊-q⌋

/-- The `WEIGHTS["signal"]` constant. -/
def SIGNAL_WEIGHT : ℚ := 40

/-- The ordered reason labels checked by the scorer. -/
def reasonsOf (l : Lead) : List String :=
  (if "EtherCAT" ∈ l.stack_tags ∨ "PROFINET" ∈ l.stack_tags ∨ "EtherNet/IP" ∈ l.stack_tags
    then ["Fieldbus match"] else []) ++
  (if "ROS2" ∈ l.stack_tags then ["ROS2 present"] else []) ++
  (if "TwinCAT" ∈ l.stack_tags then ["TwinCAT"] else []) ++
  (if "TIA" ∈ l.stack_tags then ["TIA Portal"] else []) ++
  (if "Studio5000" ∈ l.stack_tags then ["Studio 5000"] else []) ++
  (if l.sources.any (fun s => s.name == .ETG) then ["Listed on ETG"] else []) ++
  (if l.sources.any (fun s => s.name == .SIEMENS) then ["Siemens partner"] else []) ++
  (if l.sources.any (fun s => s.name == .UR) then ["UR ecosystem"] else []) ++
  (if l.sources.any (fun s => s.name == .BECKHOFF) then ["Beckhoff ecosystem"] else []) ++
  (if l.sources.any (fun s => s.name == .PI_PROFINET) then ["PI/PROFINET ecosystem"] else [])

/-- The pitch template rendered for a lead. -/
def pitchOf (l : Lead) : String :=
  "Abbiamo integrazioni MAC con EtherCAT/PROFINET/EtherNet-IP, ROS2, UR e PLC (TwinCAT/TIA/Studio5000). POC rapido sul vostro stack ("
    ++ String.intercalate ", " l.stack_tags ++ ")."

/-- The per-lead body of the `score` endpoint: recompute `score`,
    `priority_class`, `reason` and `pitch` from the evidence fields. -/
def scoreLead (l : Lead) : Lead :=
  let sig : ℚ := maxStrength l.sources
  let sig_pts : ℤ := pyIntTrunc (sig * SIGNAL_WEIGHT)
  let st_pts : ℤ := stack_points l
  let raw : ℤ := max 0 (min 100 (sig_pts + st_pts))
  let reasons := reasonsOf l
  { l with
    score := raw,
    priority_class := some (if raw ≥ 70 then "HOT" else if raw ≥ 45 then "WARM" else "COLD"),
    reason := some (if reasons = [] then "Relevance match" else String.intercalate "; " reasons),
    pitch := some (pitchOf l) }

/-- A whole scoring pass over the lead store's values. -/
def scorePass (leads : List Lead) : List Lead := leads.map scoreLead

/-! ## Merge-engine lemmas -/

theorem unionAppend_cons (acc : List String) (x : String) (xs : List String) :
    unionAppend acc (x :: xs) = unionAppend (if x ∈ acc then acc else acc ++ [x]) xs := rfl

/-- Membership in the guarded union-append is membership in either input. -/
theorem mem_unionAppend (t : String) : ∀ (ts acc : List String),
    t ∈ unionAppend acc ts ↔ t ∈ acc ∨ t ∈ ts := by
  intro ts
  induction ts with
  | nil => intro acc; simp [unionAppend]
  | cons x xs ih =>
    intro acc
    rw [unionAppend_cons, ih]
    by_cases hx : x ∈ acc
    · simp only [if_pos hx, List.mem_cons]
      constructor
      · rintro (h | h) <;> tauto
      · rintro (h | rfl | h) <;> tauto
    · simp only [if_neg hx, List.mem_append, List.mem_singleton, List.mem_cons]
      tauto

/-- The guarded union-append preserves `Nodup`. -/
theorem nodup_unionAppend : ∀ (ts acc : List String), acc.Nodup → (unionAppend acc ts).Nodup := by
  intro ts
  induction ts with
  | nil => intro acc h; exact h
  | cons x xs ih =>
    intro acc h
    rw [unionAppend_cons]
    by_cases hx : x ∈ acc
    · rw [if_pos hx]; exact ih acc h
    · rw [if_neg hx]
      refine ih _ ?_
      simp [List.nodup_append, h, hx]

/-- One upsert hitting an existing lead rewrites the entry with `mergeLead`. -/
theorem upsert_hits_existing (st : Store) (rc : RawCompany) (K : String) (l : Lead)
    (hid : companyIdOf rc = K) (hK : st K = some l) :
    upsert_lead_from_raw st rc K = some (mergeLead l rc) := by
  simp [upsert_lead_from_raw, hid, hK]

/-- One upsert on a fresh id creates the seeded lead. -/
theorem upsert_creates (st : Store) (rc : RawCompany) (K : String)
    (hid : companyIdOf rc = K) (hK : st K = none) :
    upsert_lead_from_raw st rc K = some (newLeadOf rc (companyIdOf rc)) := by
  simp [upsert_lead_from_raw, hid, hK]

/-- Upserts touch only their own company id. -/
theorem upsertAll_frame : ∀ (rcs : List RawCompany) (st : Store) (K : String),
    (∀ rc ∈ rcs, companyIdOf rc = K) → ∀ k, k ≠ K → upsertAll st rcs k = st k := by
  intro rcs
  induction rcs with
  | nil => intro st K _ k _; rfl
  | cons rc rest ih =>
    intro st K hids k hk
    have h1 : upsert_lead_from_raw st rc k = st k := by
      have : companyIdOf rc = K := hids rc (by simp)
      simp [upsert_lead_from_raw, this, hk]
    calc upsertAll st (rc :: rest) k
        = upsertAll (upsert_lead_from_raw st rc) rest k := rfl
      _ = upsert_lead_from_raw st rc k :=
          ih _ K (fun x hx => hids x (by simp [hx])) k hk
      _ = st k := h1

/-- Evidence accumulation over a lead already present under id `K`. -/
theorem upsertAll_existing : ∀ (rcs : List RawCompany) (st : Store) (K : String) (l : Lead),
    (∀ rc ∈ rcs, companyIdOf rc = K) → st K = some l →
    ∃ l', upsertAll st rcs K = some l' ∧
      l'.sources = l.sources ++ rcs.map mkHit ∧
      (∀ t, t ∈ l'.stack_tags ↔ t ∈ l.stack_tags ∨ ∃ rc ∈ rcs, t ∈ baseStacks rc.source) := by
  intro rcs
  induction rcs with
  | nil =>
    intro st K l _ hK
    exact ⟨l, by simpa [upsertAll] using hK, by simp, by simp⟩
  | cons rc rest ih =>
    intro st K l hids hK
    have hid : companyIdOf rc = K := hids rc (by simp)
    have hstep := upsert_hits_existing st rc K l hid hK
    obtain ⟨l'', h1, h2, h3⟩ :=
      ih (upsert_lead_from_raw st rc) K (mergeLead l rc)
        (fun x hx => hids x (by simp [hx])) hstep
    refine ⟨l'', h1, ?_, ?_⟩
    · simp only [h2, mergeLead, List.map_cons, List.append_assoc, List.singleton_append]
    · intro t
      rw [h3 t]
      simp only [mergeLead, mem_unionAppend, List.mem_cons]
      constructor
      · rintro ((h | h) | ⟨x, hx, hh⟩)
        · exact Or.inl h
        · exact Or.inr ⟨rc, by simp, h⟩
        · exact Or.inr ⟨x, by simp [hx], hh⟩
      · rintro (h | ⟨x, hx, hh⟩)
        · exact Or.inl (Or.inl h)
        · rcases hx with hx | hx
          · exact Or.inl (Or.inr (hx ▸ hh))
          · exact Or.inr ⟨x, hx, hh⟩

/-- Core accumulation fact for a fresh id: one lead, one `SourceHit` per
    candidate in submission order, tags the union of base tags. -/
theorem upsertAll_fresh : ∀ (rcs : List RawCompany) (st : Store) (K : String),
    rcs ≠ [] → (∀ rc ∈ rcs, companyIdOf rc = K) → st K = none →
    ∃ l, upsertAll st rcs K = some l ∧
      l.sources = rcs.map mkHit ∧
      (∀ t, t ∈ l.stack_tags ↔ ∃ rc ∈ rcs, t ∈ baseStacks rc.source) := by
  intro rcs st K hne hids h0
  match rcs, hne with
  | rc :: rest, _ =>
    have hid : companyIdOf rc = K := hids rc (by simp)
    have hstep := upsert_creates st rc K hid h0
    obtain ⟨l', h1, h2, h3⟩ :=
      upsertAll_existing rest (upsert_lead_from_raw st rc) K (newLeadOf rc (companyIdOf rc))
        (fun x hx => hids x (by simp [hx])) hstep
    refine ⟨l', h1, ?_, ?_⟩
    · simpa [newLeadOf] using h2
    · intro t
      rw [h3 t]
      simp only [newLeadOf, List.mem_cons]
      constructor
      · rintro (h | ⟨x, hx, hh⟩)
        · exact ⟨rc, by simp, h⟩
        · exact ⟨x, by simp [hx], hh⟩
      · rintro ⟨x, hx | hx, hh⟩
        · exact Or.inl (hx ▸ hh)
        · exact Or.inr ⟨x, hx, hh⟩

/-- C1: Sequentially upserting any non-empty sequence of candidates that
    map to one company id, starting from a store with no lead under that
    id, yields exactly one lead (all other keys are untouched) whose
    `sources` list has one `SourceHit` per candidate in submission order
    — carrying that candidate's source name, strength constant and
    source URL — and whose `stack_tags`, as a set, are the union of the
    source-implied base tags; consequently the `SourceHit` multiset and
    the tag set are invariant under permuting the submission order. -/
theorem upsert_same_id_accumulates (rcs rcs' : List RawCompany) (K : String) (st : Store)
    (hne : rcs ≠ [])
    (hids : ∀ rc ∈ rcs, companyIdOf rc = K)
    (h0 : st K = none)
    (hperm : rcs.Perm rcs') :
    ∃ l l', upsertAll st rcs K = some l ∧ upsertAll st rcs' K = some l' ∧
      l.sources = rcs.map mkHit ∧
      (∀ t, t ∈ l.stack_tags ↔ ∃ rc ∈ rcs, t ∈ baseStacks rc.source) ∧
      (∀ k, k ≠ K → upsertAll st rcs k = st k) ∧
      (l'.sources : Multiset SourceHit) = (l.sources : Multiset SourceHit) ∧
      l'.stack_tags.toFinset = l.stack_tags.toFinset := by
  obtain ⟨l, hl, hsrc, htags⟩ := upsertAll_fresh rcs st K hne hids h0
  have hne' : rcs' ≠ [] := by
    intro h; exact hne (List.Perm.eq_nil (h ▸ hperm))
  have hids' : ∀ rc ∈ rcs', companyIdOf rc = K :=
    fun rc hrc => hids rc (hperm.mem_iff.mpr hrc)
  obtain ⟨l', hl', hsrc', htags'⟩ := upsertAll_fresh rcs' st K hne' hids' h0
  refine ⟨l, l', hl, hl', hsrc, htags, upsertAll_frame rcs st K hids, ?_, ?_⟩
  · rw [hsrc, hsrc']
    exact Multiset.coe_eq_coe.mpr (hperm.map mkHit).symm
  · ext t
    simp only [List.mem_toFinset, htags t, htags' t]
    constructor
    · rintro ⟨x, hx, hh⟩; exact ⟨x, hperm.mem_iff.mpr hx, hh⟩
    · rintro ⟨x, hx, hh⟩; exact ⟨x, hperm.mem_iff.mp hx, hh⟩

/-- The ETG-sourced Acme/DK candidate of the spec's scenario. -/
def rcAcmeETG : RawCompany := { name := "Acme", country := "DK", source := .ETG }

/-- The Siemens-sourced Acme/DK candidate of the spec's scenario. -/
def rcAcmeSIEMENS : RawCompany := { name := "Acme", country := "DK", source := .SIEMENS }

/-- The company id both scenario candidates map to. -/
def acmeId : String := company_id_from none "Acme" "DK"

/-- Witness for C1 at a concrete two-candidate run. -/
theorem upsert_same_id_accumulates_witness :
    ∃ l l',
      upsertAll emptyStore [rcAcmeETG, rcAcmeSIEMENS] acmeId = some l ∧
      upsertAll emptyStore [rcAcmeSIEMENS, rcAcmeETG] acmeId = some l' ∧
      l.sources = [rcAcmeETG, rcAcmeSIEMENS].map mkHit ∧
      (∀ t, t ∈ l.stack_tags ↔
        ∃ rc ∈ [rcAcmeETG, rcAcmeSIEMENS], t ∈ baseStacks rc.source) ∧
      (∀ k, k ≠ acmeId → upsertAll emptyStore [rcAcmeETG, rcAcmeSIEMENS] k = emptyStore k) ∧
      (l'.sources : Multiset SourceHit) = (l.sources : Multiset SourceHit) ∧
      l'.stack_tags.toFinset = l.stack_tags.toFinset :=
  upsert_same_id_accumulates [rcAcmeETG, rcAcmeSIEMENS] [rcAcmeSIEMENS, rcAcmeETG]
    acmeId emptyStore (by decide) (by decide) rfl (by decide)

/-- C2: Upserting the ETG-sourced Acme/DK candidate and then the
    Siemens-sourced one produces a single lead with two source hits,
    the tags EtherCAT, PROFINET and TIA, and segment "OEM": the first
    candidate's creation-time default wins and the second candidate's
    "SI" default does not overwrite it. -/
theorem acme_scenario_first_write_wins :
    ∃ l, upsertAll emptyStore [rcAcmeETG, rcAcmeSIEMENS] acmeId = some l ∧
      l.sources.length = 2 ∧
      "EtherCAT" ∈ l.stack_tags ∧ "PROFINET" ∈ l.stack_tags ∧ "TIA" ∈ l.stack_tags ∧
      l.segment = some "OEM" := by
  refine ⟨_, rfl, ?_, ?_, ?_, ?_, ?_⟩ <;> decide

/-! ## Scorer lemmas -/

/-- The folded maximum is either the seed or attained on the list. -/
theorem foldl_max_attained : ∀ (t : List SourceHit) (a : ℚ),
    t.foldl (fun a x => max a x.strength) a = a ∨
    ∃ s ∈ t, t.foldl (fun a x => max a x.strength) a = s.strength := by
  intro t
  induction t with
  | nil => intro a; exact Or.inl rfl
  | cons x xs ih =>
    intro a
    rcases ih (max a x.strength) with h | ⟨s, hs, h⟩
    · rcases max_choice a x.strength with hm | hm
      · exact Or.inl (by simpa [hm] using h)
      · exact Or.inr ⟨x, by simp, by simpa [hm] using h⟩
    · exact Or.inr ⟨s, by simp [hs], h⟩

/-- `maxStrength` is zero on an empty list and otherwise attained. -/
theorem maxStrength_attained (ss : List SourceHit) :
    maxStrength ss = 0 ∨ ∃ s ∈ ss, maxStrength ss = s.strength := by
  match ss with
  | [] => exact Or.inl rfl
  | s :: t =>
    rcases foldl_max_attained t s.strength with h | ⟨x, hx, h⟩
    · exact Or.inr ⟨s, by simp, h⟩
    · exact Or.inr ⟨x, by simp [hx], h⟩

/-- The strength constants only take the values 9/10 and 17/20. -/
theorem srcStrength_cases (s : Src) : srcStrength s = 9/10 ∨ srcStrength s = 17/20 := by
  cases s <;> simp [srcStrength]

/-- C3: For a lead whose source strengths are the upsert constants, the
    scoring pass computes `clamp(0, 100, round(max strength · 40 + Σ tag
    weights))` — with the max taken as 0 on an empty source list — and
    the priority class is HOT at score ≥ 70, WARM at 45 ≤ score < 70,
    COLD below. -/
theorem score_formula (l : Lead)
    (h : ∀ s ∈ l.sources, s.strength = srcStrength s.name) :
    (scoreLead l).score
        = max 0 (min 100 (round (maxStrength l.sources * SIGNAL_WEIGHT + (stack_points l : ℚ)))) ∧
    (scoreLead l).priority_class =
      some (if (scoreLead l).score ≥ 70 then "HOT"
            else if (scoreLead l).score ≥ 45 then "WARM" else "COLD") := by
  have hsig : maxStrength l.sources = 0 ∨ maxStrength l.sources = 9/10 ∨
      maxStrength l.sources = 17/20 := by
    rcases maxStrength_attained l.sources with h0 | ⟨s, hs, hv⟩
    · exact Or.inl h0
    · rcases srcStrength_cases s.name with hc | hc
      · exact Or.inr (Or.inl (by rw [hv, h s hs, hc]))
      · exact Or.inr (Or.inr (by rw [hv, h s hs, hc]))
  have key : ∀ (n : ℤ) (m : ℕ), round ((n : ℚ) + (m : ℚ)) = n + (m : ℤ) := by
    intro n m
    rw [show ((n : ℚ) + (m : ℚ)) = ((n + (m : ℤ) : ℤ) : ℚ) by push_cast; ring, round_intCast]
  constructor
  · have hround : round (maxStrength l.sources * SIGNAL_WEIGHT + (stack_points l : ℚ))
        = pyIntTrunc (maxStrength l.sources * SIGNAL_WEIGHT) + (stack_points l : ℤ) := by
      rcases hsig with hv | hv | hv
      · rw [hv, show (0 : ℚ) * SIGNAL_WEIGHT = ((0 : ℤ) : ℚ) by norm_num [SIGNAL_WEIGHT],
          key, show pyIntTrunc ((0 : ℤ) : ℚ) = 0 by decide]
      · rw [hv, show (9/10 : ℚ) * SIGNAL_WEIGHT = ((36 : ℤ) : ℚ) by norm_num [SIGNAL_WEIGHT],
          key, show pyIntTrunc ((36 : ℤ) : ℚ) = 36 by decide]
      · rw [hv, show (17/20 : ℚ) * SIGNAL_WEIGHT = ((34 : ℤ) : ℚ) by norm_num [SIGNAL_WEIGHT],
          key, show pyIntTrunc ((34 : ℤ) : ℚ) = 34 by decide]
    rw [hround]
    rfl
  · rfl

/-- A concrete upsert-shaped lead used to witness the scoring formula. -/
def sampleScoredLead : Lead :=
  { company_id := "k", company_name := "Acme", country := "DK",
    stack_tags := ["EtherCAT"],
    sources := [{ name := .ETG, strength := 9/10, source_url := none }] }

/-- Witness for C3 at a concrete lead. -/
theorem score_formula_witness :
    (scoreLead sampleScoredLead).score
      = max 0 (min 100 (round (maxStrength sampleScoredLead.sources * SIGNAL_WEIGHT
          + (stack_points sampleScoredLead : ℚ)))) ∧
    (scoreLead sampleScoredLead).priority_class
      = some (if (scoreLead sampleScoredLead).score ≥ 70 then "HOT"
              else if (scoreLead sampleScoredLead).score ≥ 45 then "WARM" else "COLD") :=
  score_formula sampleScoredLead (by
    intro s hs
    simp only [sampleScoredLead, List.mem_singleton] at hs
    subst hs
    rfl)

/-! ## Identity-key lemmas (normalisation of the website host) -/

/-- Bridge from the boolean prefix test to the prefix relation. -/
theorem isPrefixOf_iff {l₁ l₂ : List Char} : l₁.isPrefixOf l₂ ↔ l₁ <+: l₂ :=
  List.isPrefixOf_iff_prefix

/-- A list shorter than the pattern has no `"www."` prefix. -/
theorem wwwPat_not_prefix_of_short (s : List Char) (h : s.length < 4) :
    ¬ wwwPat.isPrefixOf s := by
  rw [isPrefixOf_iff]
  intro hp
  have := hp.length_le
  simp only [wwwPat, List.length_cons, List.length_nil] at this
  omega

/-- Characterisation of the `"www."` prefix on a list of length ≥ 4. -/
theorem wwwPat_prefix_long_iff (c d e f : Char) (t : List Char) :
    wwwPat.isPrefixOf (c :: d :: e :: f :: t) ↔ (c = 'w' ∧ d = 'w' ∧ e = 'w' ∧ f = '.') := by
  rw [isPrefixOf_iff]
  show ('w' :: 'w' :: 'w' :: '.' :: ([] : List Char)) <+: _ ↔ _
  simp only [List.cons_prefix_cons, List.nil_prefix, and_true]
  constructor
  · rintro ⟨h1, h2, h3, h4⟩; exact ⟨h1.symm, h2.symm, h3.symm, h4.symm⟩
  · rintro ⟨h1, h2, h3, h4⟩; exact ⟨h1.symm, h2.symm, h3.symm, h4.symm⟩

/-- On a `"www."`-prefixed list the scan removes the prefix. -/
theorem replaceWwwAll_wwwHead : ∀ (s : List Char), wwwPat.isPrefixOf s →
    replaceWwwAll s = replaceWwwAll (s.drop 4) := by
  intro s hp
  match s with
  | [] => exact absurd hp (wwwPat_not_prefix_of_short _ (by simp))
  | [c] => exact absurd hp (wwwPat_not_prefix_of_short _ (by simp))
  | [c, d] => exact absurd hp (wwwPat_not_prefix_of_short _ (by simp))
  | [c, d, e] => exact absurd hp (wwwPat_not_prefix_of_short _ (by simp))
  | c :: d :: e :: f :: t =>
    obtain ⟨h1, h2, h3, h4⟩ := (wwwPat_prefix_long_iff c d e f t).mp hp
    subst h1; subst h2; subst h3; subst h4
    simp [replaceWwwAll]

/-- Without a `"www."` prefix the scan emits the head and continues. -/
theorem replaceWwwAll_cons_of_not (c : Char) (t : List Char)
    (hp : ¬ wwwPat.isPrefixOf (c :: t)) :
    replaceWwwAll (c :: t) = c :: replaceWwwAll t := by
  match t with
  | [] => rfl
  | [d] => rfl
  | [d, e] => rfl
  | d :: e :: f :: t' =>
    have hcond : ¬ (c = 'w' ∧ d = 'w' ∧ e = 'w' ∧ f = '.') :=
      fun hc => hp ((wwwPat_prefix_long_iff c d e f t').mpr hc)
    simp only [replaceWwwAll]
    rw [if_neg hcond]

/-- A slash-only list is untouched by the `"www."` removal. -/
theorem replaceWwwAll_slashes (r : List Char) (hr : ∀ c ∈ r, c = '/') :
    replaceWwwAll r = r := by
  induction r with
  | nil => rfl
  | cons c t ih =>
    have hc : c = '/' := hr c (by simp)
    have hp : ¬ wwwPat.isPrefixOf (c :: t) := by
      rw [isPrefixOf_iff]
      intro hpre
      have hw : 'w' = c := (List.cons_prefix_cons.mp hpre).1
      rw [hc] at hw
      exact absurd hw (by decide)
    rw [replaceWwwAll_cons_of_not c t hp, ih (fun x hx => hr x (by simp [hx]))]

/-- Appending a slash-only suffix does not create or destroy a leading
    `"www."` occurrence. -/
theorem wwwPat_prefix_append_slashes (y r : List Char) (hr : ∀ c ∈ r, c = '/') :
    wwwPat.isPrefixOf (y ++ r) = wwwPat.isPrefixOf y := by
  by_cases hy : wwwPat <+: y
  · rw [isPrefixOf_iff.mpr hy,
      isPrefixOf_iff.mpr (hy.trans (List.prefix_append y r))]
  · have h1 : wwwPat.isPrefixOf y = false := by
      rw [← Bool.not_eq_true]
      exact fun hc => hy (isPrefixOf_iff.mp hc)
    have h2 : wwwPat.isPrefixOf (y ++ r) = false := by
      rw [← Bool.not_eq_true]
      intro hc
      have hpre := isPrefixOf_iff.mp hc
      by_cases hlen : 4 ≤ y.length
      · apply hy
        have htake : (y ++ r).take 4 = y.take 4 := by
          rw [List.take_append_eq_append_take, Nat.sub_eq_zero_of_le hlen]
          simp
        have h := List.prefix_iff_eq_take.mp hpre
        rw [show wwwPat.length = 4 from rfl, htake] at h
        exact List.prefix_iff_eq_take.mpr (by rw [show wwwPat.length = 4 from rfl]; exact h)
      · obtain ⟨tail, htail⟩ := hpre
        have h9 : (y ++ r)[3]? = some '.' := by
          rw [← htail, List.getElem?_append_left (by simp [wwwPat])]
          rfl
        rw [List.getElem?_append_right (by omega)] at h9
        obtain ⟨hlt, he⟩ := List.getElem?_eq_some_iff.mp h9
        have hm : '.' ∈ r := he ▸ r.getElem_mem hlt
        exact absurd (hr _ hm) (by decide)
    rw [h1, h2]

/-- The `"www."` removal commutes with a trailing run of slashes. -/
theorem replaceWwwAll_append_slashes (r : List Char) (hr : ∀ c ∈ r, c = '/') :
    ∀ y, replaceWwwAll (y ++ r) = replaceWwwAll y ++ r := by
  have H : ∀ (n : ℕ) (y : List Char), y.length ≤ n →
      replaceWwwAll (y ++ r) = replaceWwwAll y ++ r := by
    intro n
    induction n with
    | zero =>
      intro y hy
      have hy0 : y = [] := List.eq_nil_of_length_eq_zero (Nat.le_zero.mp hy)
      subst hy0
      simpa using replaceWwwAll_slashes r hr
    | succ n ih =>
      intro y hy
      rcases y with _ | ⟨c, t⟩
      · simpa using replaceWwwAll_slashes r hr
      by_cases hp : wwwPat.isPrefixOf (c :: t)
      · have hp' : wwwPat.isPrefixOf ((c :: t) ++ r) := by
          rw [wwwPat_prefix_append_slashes _ r hr]; exact hp
        have hlen : 4 ≤ (c :: t).length := by
          simpa [wwwPat] using (isPrefixOf_iff.mp hp).length_le
        rw [replaceWwwAll_wwwHead _ hp', replaceWwwAll_wwwHead _ hp,
          List.drop_append_eq_append_drop, Nat.sub_eq_zero_of_le hlen, List.drop_zero]
        exact ih _ (by simp only [List.length_drop, List.length_cons] at hy ⊢; omega)
      · have hp' : ¬ wwwPat.isPrefixOf ((c :: t) ++ r) := by
          rw [wwwPat_prefix_append_slashes _ r hr]; exact hp
        rw [show (c :: t) ++ r = c :: (t ++ r) from rfl,
          replaceWwwAll_cons_of_not c (t ++ r) hp', replaceWwwAll_cons_of_not c t hp,
          ih t (by simp only [List.length_cons] at hy; omega)]
        rfl
  exact fun y => H y.length y le_rfl

/-- A list splits as its slash-stripped part plus its trailing slash run. -/
theorem stripTrail_append_run (s : List Char) :
    stripTrailSlash s ++ slashRunOf s = s := by
  unfold stripTrailSlash slashRunOf
  rw [← List.reverse_append, List.takeWhile_append_dropWhile, List.reverse_reverse]

/-- The trailing run consists of slashes only. -/
theorem slashRunOf_slashes (s : List Char) : ∀ c ∈ slashRunOf s, c = '/' := by
  intro c hc
  unfold slashRunOf at hc
  rw [List.mem_reverse] at hc
  simpa using List.mem_takeWhile_imp hc

/-- Dropping-while over an all-satisfying first block skips it entirely. -/
theorem dropWhile_append_all (p : Char → Bool) : ∀ (l₁ l₂ : List Char),
    (∀ a ∈ l₁, p a = true) → (l₁ ++ l₂).dropWhile p = l₂.dropWhile p := by
  intro l₁
  induction l₁ with
  | nil => intro l₂ _; rfl
  | cons a t ih =>
    intro l₂ h
    rw [List.cons_append, List.dropWhile_cons_of_pos (h a (by simp))]
    exact ih l₂ (fun x hx => h x (by simp [hx]))

/-- Trailing-slash stripping absorbs an appended slash run. -/
theorem stripTrail_append_slashes (z r : List Char) (hr : ∀ c ∈ r, c = '/') :
    stripTrailSlash (z ++ r) = stripTrailSlash z := by
  unfold stripTrailSlash
  have h : ∀ a ∈ r.reverse, (fun c => c == '/') a = true := by
    intro a ha
    rw [List.mem_reverse] at ha
    simp [hr a ha]
  rw [List.reverse_append, dropWhile_append_all _ _ _ h]

/-- Both-ends slash stripping absorbs an appended slash run. -/
theorem stripBoth_append_slashes (z r : List Char) (hr : ∀ c ∈ r, c = '/') :
    stripBothSlash (z ++ r) = stripBothSlash z := by
  unfold stripBothSlash
  rw [stripTrail_append_slashes z r hr]

/-- Removing one leading `"www."` does not change the full removal. -/
theorem replaceWwwAll_dropWwwHead (h : List Char) :
    replaceWwwAll (dropWwwHead h) = replaceWwwAll h := by
  unfold dropWwwHead
  by_cases hp : wwwPat.isPrefixOf h
  · rw [if_pos hp, replaceWwwAll_wwwHead h hp]
  · rw [if_neg hp]

/-- The code's host normalisation factors through the spec's coarser
    normalisation: normalising the claim-normalised host gives the same
    result as normalising the raw host. -/
theorem codeHostNorm_claimHostNorm (h : List Char) :
    codeHostNorm (claimHostNorm h) = codeHostNorm h := by
  unfold codeHostNorm claimHostNorm
  have hrun := slashRunOf_slashes (dropWwwHead h)
  calc stripBothSlash (replaceWwwAll (stripTrailSlash (dropWwwHead h)))
      = stripBothSlash (replaceWwwAll (stripTrailSlash (dropWwwHead h))
          ++ slashRunOf (dropWwwHead h)) :=
        (stripBoth_append_slashes _ _ hrun).symm
    _ = stripBothSlash (replaceWwwAll (stripTrailSlash (dropWwwHead h)
          ++ slashRunOf (dropWwwHead h))) := by
        rw [replaceWwwAll_append_slashes _ hrun]
    _ = stripBothSlash (replaceWwwAll (dropWwwHead h)) := by
        rw [stripTrail_append_run]
    _ = stripBothSlash (replaceWwwAll h) := by rw [replaceWwwAll_dropWwwHead]

/-- The claim-side website-host key: the extracted host normalised as the
    spec words it (lowercase, one `"www."` prefix stripped, trailing
    slashes stripped). -/
def claimHostKey (w : Option String) : List Char :=
  claimHostNorm (netlocOrBase (pyLower (pyTrim (optChars w))))

/-- Website absence as the code sees it: the trimmed, lowered website
    string is empty (`None` or whitespace-only). -/
def websiteAbsent (w : Option String) : Prop :=
  pyLower (pyTrim (optChars w)) = []

instance (w : Option String) : Decidable (websiteAbsent w) :=
  inferInstanceAs (Decidable (_ = _))

/-- C4: `company_id_from` is a pure function of the normalised inputs —
    logically-equivalent inputs (same claim-normalised website host, or
    both websites absent; same name up to case and surrounding
    whitespace; same country up to case) give identical ids — and for a
    fixed website and name, countries that differ after uppercasing give
    different ids. -/
theorem company_id_pure_and_country_sensitive :
    (∀ (w₁ w₂ : Option String) (n₁ n₂ c₁ c₂ : String),
      ((websiteAbsent w₁ ∧ websiteAbsent w₂) ∨
       (¬ websiteAbsent w₁ ∧ ¬ websiteAbsent w₂ ∧ claimHostKey w₁ = claimHostKey w₂)) →
      pyLower (pyTrim n₁.data) = pyLower (pyTrim n₂.data) →
      pyUpper c₁.data = pyUpper c₂.data →
      company_id_from w₁ n₁ c₁ = company_id_from w₂ n₂ c₂) ∧
    (∀ (w : Option String) (n c₁ c₂ : String),
      pyUpper c₁.data ≠ pyUpper c₂.data →
      company_id_from w n c₁ ≠ company_id_from w n c₂) := by
  constructor
  · intro w₁ w₂ n₁ n₂ c₁ c₂ hw hn hc
    unfold company_id_from
    congr 1
    simp only [companyKeyChars]
    rcases hw with ⟨ha₁, ha₂⟩ | ⟨ha₁, ha₂, hkey⟩
    · unfold websiteAbsent at ha₁ ha₂
      rw [if_neg (fun hne => hne ha₁), if_neg (fun hne => hne ha₂), hn, hc]
    · unfold websiteAbsent at ha₁ ha₂
      rw [if_pos ha₁, if_pos ha₂, hn, hc]
      have hhost : codeHostNorm (netlocOrBase (pyLower (pyTrim (optChars w₁))))
          = codeHostNorm (netlocOrBase (pyLower (pyTrim (optChars w₂)))) := by
        rw [← codeHostNorm_claimHostNorm (netlocOrBase (pyLower (pyTrim (optChars w₁)))),
          ← codeHostNorm_claimHostNorm (netlocOrBase (pyLower (pyTrim (optChars w₂))))]
        exact congrArg codeHostNorm hkey
      rw [hhost]
  · intro w n c₁ c₂ hne heq
    apply hne
    have hd : companyKeyChars w n c₁ = companyKeyChars w n c₂ := by
      injection heq
    simp only [companyKeyChars, List.append_assoc] at hd
    exact List.append_cancel_left (List.append_cancel_left
      (List.append_cancel_left (List.append_cancel_left hd)))

/-- Witness for C4: two spellings of the same company coincide, and a
    country change separates ids. -/
theorem company_id_pure_witness :
    company_id_from (some "https://www.Acme.com/") " Acme " "dk"
      = company_id_from (some "http://acme.com") "acme" "DK" ∧
    company_id_from none "Acme" "DK" ≠ company_id_from none "Acme" "SE" :=
  ⟨company_id_pure_and_country_sensitive.1 (some "https://www.Acme.com/")
      (some "http://acme.com") " Acme " "acme" "dk" "DK"
      (Or.inr ⟨by decide, by decide, by decide⟩) (by decide) (by decide),
   company_id_pure_and_country_sensitive.2 none "Acme" "DK" "SE" (by decide)⟩

/-- Rescoring a lead whose evidence is unchanged reproduces the same
    derived fields. -/
theorem scoreLead_scoreLead (l : Lead) : scoreLead (scoreLead l) = scoreLead l := rfl

/-- C8: The scoring pass is idempotent on the lead store — a second
    consecutive pass leaves every lead (in particular its score,
    priority class, reason and pitch) exactly as the first pass did. -/
theorem score_pass_idempotent (leads : List Lead) :
    scorePass (scorePass leads) = scorePass leads ∧
    ∀ l ∈ leads,
      (scoreLead (scoreLead l)).score = (scoreLead l).score ∧
      (scoreLead (scoreLead l)).priority_class = (scoreLead l).priority_class ∧
      (scoreLead (scoreLead l)).reason = (scoreLead l).reason ∧
      (scoreLead (scoreLead l)).pitch = (scoreLead l).pitch := by
  refine ⟨?_, fun l _ => by rw [scoreLead_scoreLead]; exact ⟨rfl, rfl, rfl, rfl⟩⟩
  simp only [scorePass, List.map_map]
  exact List.map_congr_left fun l _ => scoreLead_scoreLead l

/-! ## HTTP fetch policy (`RobustHttp`) -/

/-- Observable effects of a `RobustHttp.get` call, modelled up to the
    point where the network request for the target URL would be issued. -/
inductive GetEvent
  | robotsLookup
  | robotsFetch
  | paced
  | httpAttempt
deriving DecidableEq, Repr

/-- Outcome of the modelled prefix of `RobustHttp.get`. -/
inductive GetOutcome
  | fromCache (body : String)
  | robotsDisallowed (host : String)
  | proceedNetwork
deriving DecidableEq, Repr

/-- Mutable fetcher state: response cache, robots cache and the per-host
    rate-bucket timestamps (`RateBucket.last`). -/
structure HttpState where
  cache : String → Option String
  robotsCache : String → Option String
  bucketLast : String → Option ℚ

/-- The host of a URL (`urlparse(url).netloc`). -/
def hostOf (url : String) : String := String.mk (urlNetloc url.data)

/-- The scheme of a URL, when it is followed by `"://"`. -/
def urlSchemeChars (s : List Char) : List Char :=
  let pre := s.takeWhile (fun c => !(c == ':'))
  let rest := s.dropWhile (fun c => !(c == ':'))
  if pre ≠ [] ∧ pre.all isSchemeChar ∧ rest.take 3 = [':', '/', '/'] then pre else []

/-- The `robots.txt` URL for a target URL:
    `urljoin(f"{p.scheme}://{p.netloc}", "/robots.txt")`. -/
def robotsUrlOf (url : String) : String :=
  String.mk (urlSchemeChars url.data ++ [':', '/', '/'] ++ urlNetloc url.data
    ++ "/robots.txt".data)

/-- The final test of `robots_allowed`: the fetch is allowed iff the
    policy text does not contain the substring `"Disallow: /"`. -/
def robotsPolicyAllows (txt : String) : Bool := !(strContains txt "Disallow: /")

/-- Model of `RobustHttp.get` up to (and excluding) its network retry
    loop.  The recursive fetch of `robots.txt` done inside
    `robots_allowed` when the policy is not yet cached is abstracted as
    the oracle `robotsFetch`; a failing oracle models any raised
    exception, which `robots_allowed` swallows by allowing the fetch.
    `now` is the wall clock at the pacing step; a proceeding call
    advances the host's rate bucket to it. -/
def RobustHttp_get (respect : Bool) (st : HttpState) (robotsFetch : Except Unit String)
    (now : ℚ) (url : String) (cache_ok : Bool) :
    GetOutcome × HttpState × List GetEvent :=
  if cache_ok ∧ (st.cache url).isSome then
    (.fromCache ((st.cache url).getD ""), st, [])
  else
    let host := hostOf url
    let rUrl := robotsUrlOf url
    let proceed : HttpState → List GetEvent → GetOutcome × HttpState × List GetEvent :=
      fun s evs =>
        (.proceedNetwork,
         { s with bucketLast := fun h => if h = host then some now else s.bucketLast h },
         evs ++ [.paced, .httpAttempt])
    if respect then
      match st.robotsCache rUrl with
      | some txt =>
        if robotsPolicyAllows txt then proceed st [.robotsLookup]
        else (.robotsDisallowed host, st, [.robotsLookup])
      | none =>
        match robotsFetch with
        | .ok txt =>
          let st' := { st with
            robotsCache := fun u => if u = rUrl then some txt else st.robotsCache u }
          if robotsPolicyAllows txt then proceed st' [.robotsLookup, .robotsFetch]
          else (.robotsDisallowed host, st', [.robotsLookup, .robotsFetch])
        | .error _ => proceed st [.robotsLookup, .robotsFetch]
    else proceed st []

/-- Whitespace-insensitive line split (for the claim-side robots test). -/
def splitLines : List Char → List (List Char)
  | [] => [[]]
  | c :: t =>
    let r := splitLines t
    if c = '\n' then [] :: r
    else
      match r with
      | [] => [[c]]
      | h :: rest => (c :: h) :: rest

/-- The claim-side reading of the robots test: some line of the policy is
    exactly a blanket `Disallow: /` (after trimming whitespace). -/
def hasBlanketDisallow (txt : String) : Bool :=
  (splitLines txt.data).any (fun ln => pyTrim ln == "Disallow: /".data)

/-- C5 counterexample: the policy below contains only the path-specific
    rule `Disallow: /private` — no blanket disallow of `/` — yet the
    code's substring test makes the fetch fail with the robots error
    instead of proceeding. -/
theorem robots_path_specific_blocks :
    hasBlanketDisallow "User-agent: *\nDisallow: /private" = false ∧
    (RobustHttp_get true
        { cache := fun _ => none,
          robotsCache := fun u =>
            if u = robotsUrlOf "https://example.com/page" then
              some "User-agent: *\nDisallow: /private" else none,
          bucketLast := fun _ => none }
        (.error ()) 0 "https://example.com/page" true).1
      = .robotsDisallowed (hostOf "https://example.com/page") := by
  constructor
  · decide
  · decide

/-- C5 (amended): with robots compliance on and the host's policy
    resolved in the robots cache, a fetch of a non-cached URL fails fast
    with the robots error — with no HTTP request issued and the state
    untouched — exactly when the policy text contains the substring
    `"Disallow: /"` (which includes every path-specific disallow); when
    the substring is absent, or compliance is disabled, the fetch
    proceeds to the network. -/
theorem robots_gate (st : HttpState) (rf : Except Unit String) (now : ℚ)
    (url txt : String) (hnc : st.cache url = none)
    (hrc : st.robotsCache (robotsUrlOf url) = some txt) :
    (strContains txt "Disallow: /" = true →
      RobustHttp_get true st rf now url true
        = (.robotsDisallowed (hostOf url), st, [.robotsLookup]) ∧
      GetEvent.httpAttempt ∉ [GetEvent.robotsLookup]) ∧
    (strContains txt "Disallow: /" = false →
      (RobustHttp_get true st rf now url true).1 = .proceedNetwork) ∧
    (RobustHttp_get false st rf now url true).1 = .proceedNetwork := by
  refine ⟨fun hsub => ⟨?_, by decide⟩, fun hsub => ?_, ?_⟩
  · simp [RobustHttp_get, hnc, hrc, robotsPolicyAllows, hsub]
  · simp [RobustHttp_get, hnc, hrc, robotsPolicyAllows, hsub]
  · simp [RobustHttp_get, hnc]

/-- Witness for C5 (amended) at a concrete blocking policy. -/
theorem robots_gate_witness :
    (strContains "Disallow: /" "Disallow: /" = true →
      RobustHttp_get true
          { cache := fun _ => none,
            robotsCache := fun u =>
              if u = robotsUrlOf "https://example.com/a" then some "Disallow: /" else none,
            bucketLast := fun _ => none }
          (.error ()) 0 "https://example.com/a" true
        = (.robotsDisallowed (hostOf "https://example.com/a"),
           { cache := fun _ => none,
             robotsCache := fun u =>
               if u = robotsUrlOf "https://example.com/a" then some "Disallow: /" else none,
             bucketLast := fun _ => none }, [.robotsLookup]) ∧
      GetEvent.httpAttempt ∉ [GetEvent.robotsLookup]) ∧
    (strContains "Disallow: /" "Disallow: /" = false →
      (RobustHttp_get true
          { cache := fun _ => none,
            robotsCache := fun u =>
              if u = robotsUrlOf "https://example.com/a" then some "Disallow: /" else none,
            bucketLast := fun _ => none }
          (.error ()) 0 "https://example.com/a" true).1 = .proceedNetwork) ∧
    (RobustHttp_get false
        { cache := fun _ => none,
          robotsCache := fun u =>
            if u = robotsUrlOf "https://example.com/a" then some "Disallow: /" else none,
          bucketLast := fun _ => none }
        (.error ()) 0 "https://example.com/a" true).1 = .proceedNetwork :=
  robots_gate _ (.error ()) 0 "https://example.com/a" "Disallow: /" rfl (by decide)

/-- C10: For a URL already in the response cache, a `cache_ok=True` get
    returns the cached body and changes nothing else: the whole state
    (response cache, robots cache, rate-limiter buckets) is returned
    untouched and no robots lookup, pacing wait or HTTP request occurs
    (the event trace is empty), regardless of the host's robots policy. -/
theorem cached_get_pure (respect : Bool) (st : HttpState) (rf : Except Unit String)
    (now : ℚ) (url body : String) (h : st.cache url = some body) :
    RobustHttp_get respect st rf now url true = (.fromCache body, st, []) := by
  simp [RobustHttp_get, h]

/-- A fetcher state whose robots policy disallows everything but whose
    response cache already holds a body for the demo URL. -/
def cachedDemoState : HttpState :=
  { cache := fun u => if u = "https://example.com/page" then some "cached-body" else none,
    robotsCache := fun _ => some "Disallow: /",
    bucketLast := fun _ => none }

/-- Witness for C10: the cached body is served even though the host's
    cached robots policy would disallow the fetch. -/
theorem cached_get_pure_witness :
    RobustHttp_get true cachedDemoState (.error ()) 0 "https://example.com/page" true
      = (.fromCache "cached-body", cachedDemoState, []) :=
  cached_get_pure true cachedDemoState (.error ()) 0 "https://example.com/page"
    "cached-body" (by simp [cachedDemoState])

/-! ## Scan orchestration (`scan_task` and `start_scan`) -/

/-- The retry budget (`MAX_RETRIES`). -/
def MAX_RETRIES : ℕ := 5

/-- Job record (the `JobStatus` fields the claims are about). -/
structure JobRec where
  status : String
  found : ℕ := 0
  errors : ℕ := 0
deriving DecidableEq, Repr

/-- The retry loop of `scan_task` over the sequence of outcomes of the
    adapter calls: the first success returns its rows, and exhausting the
    attempts returns no rows plus the last error (defaulting to
    `"error"` when it is missing or empty). -/
def scanTaskGo : List (Except String (List RawCompany)) → Option String →
    List RawCompany × Option String
  | [], last =>
    ([], some (match last with
               | some e => if e = "" then "error" else e
               | none => "error"))
  | a :: rest, _ =>
    match a with
    | .ok rows => (rows, none)
    | .error e => scanTaskGo rest (some e)

/-- Model of `scan_task` given its attempt outcomes. -/
def scanTask (attempts : List (Except String (List RawCompany))) :
    List RawCompany × Option String :=
  scanTaskGo attempts none

/-- Whether a finished task is counted as an error (`if err:`). -/
def taskErred (r : List RawCompany × Option String) : Bool := pyTruthyStr r.2

/-- The completion loop of `start_scan`: count one error per errored
    task, otherwise merge every row and count it in `found`; no task
    outcome aborts the loop. -/
def runScanLoop (st : Store) (found errors : ℕ) :
    List (List RawCompany × Option String) → Store × ℕ × ℕ
  | [] => (st, found, errors)
  | r :: rest =>
    if taskErred r then runScanLoop st found (errors + 1) rest
    else runScanLoop (upsertAll st r.1) (found + r.1.length) errors rest

/-- Model of `start_scan` given the per-task attempt outcomes: run every
    task's retry loop, fold the completion loop over the results, then
    mark the job `scanned` with the accumulated counters. -/
def start_scan (st : Store) (tasks : List (List (Except String (List RawCompany)))) :
    JobRec × Store :=
  let out := runScanLoop st 0 0 (tasks.map scanTask)
  ({ status := "scanned", found := out.2.1, errors := out.2.2 }, out.1)

/-- Counter bookkeeping of the completion loop. -/
theorem runScanLoop_counts : ∀ (rs : List (List RawCompany × Option String))
    (st : Store) (f e : ℕ),
    (runScanLoop st f e rs).2.1
        = f + ((rs.filter (fun r => !taskErred r)).map (fun r => r.1.length)).sum ∧
    (runScanLoop st f e rs).2.2 = e + (rs.filter taskErred).length := by
  intro rs
  induction rs with
  | nil => intro st f e; simp [runScanLoop]
  | cons r rest ih =>
    intro st f e
    cases hr : taskErred r with
    | true =>
      obtain ⟨ih1, ih2⟩ := ih st f (e + 1)
      have hstep : runScanLoop st f e (r :: rest) = runScanLoop st f (e + 1) rest := by
        simp [runScanLoop, hr]
      refine ⟨?_, ?_⟩
      · rw [hstep, ih1, List.filter_cons]
        simp [hr]
      · rw [hstep, ih2, List.filter_cons]
        simp only [hr, if_pos, List.length_cons]
        omega
    | false =>
      obtain ⟨ih1, ih2⟩ := ih (upsertAll st r.1) (f + r.1.length) e
      have hstep : runScanLoop st f e (r :: rest)
          = runScanLoop (upsertAll st r.1) (f + r.1.length) e rest := by
        simp [runScanLoop, hr]
      refine ⟨?_, ?_⟩
      · rw [hstep, ih1, List.filter_cons]
        simp only [hr, Bool.not_false, if_pos, List.map_cons, List.sum_cons]
        omega
      · rw [hstep, ih2, List.filter_cons]
        simp [hr]

/-- A task whose attempts all fail yields no rows and a truthy error. -/
theorem scanTaskGo_all_err : ∀ (atts : List (Except String (List RawCompany)))
    (last : Option String), (∀ a ∈ atts, a.isOk = false) →
    (scanTaskGo atts last).1 = [] ∧ taskErred (scanTaskGo atts last) = true := by
  intro atts
  induction atts with
  | nil =>
    intro last _
    refine ⟨rfl, ?_⟩
    match last with
    | none => rfl
    | some e =>
      by_cases he : e = ""
      · simp [scanTaskGo, taskErred, pyTruthyStr, he]
      · simp [scanTaskGo, taskErred, pyTruthyStr, he]
  | cons a rest ih =>
    intro last h
    match a, h a (by simp) with
    | .error e, _ => exact ih (some e) (fun x hx => h x (by simp [hx]))
    | .ok rows, hfalse => exact Bool.noConfusion hfalse

/-- C6: `start_scan` always drives its job to the terminal status
    "scanned" and never to "failed"; every task that exhausts its
    `MAX_RETRIES` attempts with failures contributes zero candidates and
    exactly one error; every successful task adds its row count to
    `found`; and the counters account for all tasks — no outcome aborts
    the completion loop. -/
theorem start_scan_terminal (st : Store)
    (tasks : List (List (Except String (List RawCompany)))) :
    (start_scan st tasks).1.status = "scanned" ∧
    (start_scan st tasks).1.status ≠ "failed" ∧
    (start_scan st tasks).1.errors = ((tasks.map scanTask).filter taskErred).length ∧
    (start_scan st tasks).1.found
      = (((tasks.map scanTask).filter (fun r => !taskErred r)).map (fun r => r.1.length)).sum ∧
    ∀ t ∈ tasks, t.length = MAX_RETRIES → (∀ a ∈ t, a.isOk = false) →
      (scanTask t).1 = [] ∧ taskErred (scanTask t) = true := by
  obtain ⟨h1, h2⟩ := runScanLoop_counts (tasks.map scanTask) st 0 0
  refine ⟨rfl, ?_, ?_, ?_, ?_⟩
  · simp [start_scan]
  · simp only [start_scan]
    rw [h2]
    simp
  · simp only [start_scan]
    rw [h1]
    simp
  · intro t _ hlen hall
    exact scanTaskGo_all_err t none hall

/-- A five-failure attempt list for the C6 witness. -/
def allFailAttempts : List (Except String (List RawCompany)) :=
  [.error "boom", .error "", .error "x", .error "y", .error "z"]

/-- A first-try success for the C6 witness. -/
def oneOkAttempts : List (Except String (List RawCompany)) :=
  [.ok [rcAcmeETG]]

/-- Witness for C6 at a concrete two-task grid. -/
theorem start_scan_terminal_witness :
    (start_scan emptyStore [allFailAttempts, oneOkAttempts]).1.status = "scanned" ∧
    (start_scan emptyStore [allFailAttempts, oneOkAttempts]).1.status ≠ "failed" ∧
    (start_scan emptyStore [allFailAttempts, oneOkAttempts]).1.errors
      = (([allFailAttempts, oneOkAttempts].map scanTask).filter taskErred).length ∧
    (start_scan emptyStore [allFailAttempts, oneOkAttempts]).1.found
      = ((([allFailAttempts, oneOkAttempts].map scanTask).filter
          (fun r => !taskErred r)).map (fun r => r.1.length)).sum ∧
    ∀ t ∈ [allFailAttempts, oneOkAttempts], t.length = MAX_RETRIES →
      (∀ a ∈ t, a.isOk = false) →
      (scanTask t).1 = [] ∧ taskErred (scanTask t) = true :=
  start_scan_terminal emptyStore [allFailAttempts, oneOkAttempts]

/-! ## Deep enrichment accumulators (`enrich_deep`) -/

/-- The values of the `LANG_HINTS` table — the only language codes
    `detect_languages` can ever emit. -/
def LANG_CODES : List String :=
  ["DE", "EN", "IT", "FR", "ES", "PT", "DA", "NO", "SV", "FI", "NL", "PL",
   "CS", "HU", "RO", "BG", "EL", "LT", "LV", "ET"]

/-- The contact-dedup test: an existing contact `x` blocks a new contact
    `c` when they share a truthy email, linkedin, or name. -/
def contactMatches (c x : Contact) : Bool :=
  (pyTruthyStr c.email && c.email == x.email) ||
  (pyTruthyStr c.linkedin && c.linkedin == x.linkedin) ||
  (pyTruthyStr c.name && c.name == x.name)

/-- Deduplicated contact accumulation against the whole current list. -/
def dedupAppendContacts (acc cs : List Contact) : List Contact :=
  cs.foldl (fun a c => if a.any (contactMatches c) then a else a ++ [c]) acc

/-- Project-headline accumulation, guarded by the in-loop `< 20` cap and
    the dedup test. -/
def guardedProjectsAppend (acc ts : List String) : List String :=
  ts.foldl (fun a ttl => if a.length < 20 ∧ ttl ∉ a then a ++ [ttl] else a) acc

/-- Python `sorted(set(xs))`. -/
def pySortedSet (xs : List String) : List String :=
  (xs.eraseDups).insertionSort (fun a b => a ≤ b)

/-- What one successfully fetched page contributes during the deep pass
    (the HTML parsing itself is an out-of-scope collaborator; the page is
    represented by its extracted contributions).  `langs` entries come
    from `detect_languages`, whose outputs are always `LANG_HINTS`
    values. -/
structure PageData where
  tags : List String := []
  contacts : List Contact := []
  langs : List String := []
  partners : List String := []
  sectors : List String := []
  projectTitles : List String := []
deriving Repr

/-- The per-page accumulation step of the deep pass over one lead. -/
def enrichPageStep (acc : Lead × CompanyContext) (p : PageData) : Lead × CompanyContext :=
  ({ acc.1 with
      stack_tags := unionAppend acc.1.stack_tags p.tags,
      contacts := dedupAppendContacts acc.1.contacts p.contacts },
   { acc.2 with
      languages := unionAppend acc.2.languages p.langs,
      partners := unionAppend acc.2.partners p.partners,
      sectors := unionAppend acc.2.sectors p.sectors,
      recent_projects := guardedProjectsAppend acc.2.recent_projects p.projectTitles })

/-- The deep-pass body for one targeted lead with base URLs: accumulate
    every page's contributions, then apply the post-pass caps
    (`contacts[:50]`, `partners[:25]`, `sectors[:25]`,
    `recent_projects[:25]`) and rebuild `technologies`. -/
def enrichDeepLeadBody (l : Lead) (pages : List PageData) : Lead :=
  let acc := pages.foldl enrichPageStep (l, l.context.getD {})
  { acc.1 with
    contacts := acc.1.contacts.take 50,
    context := some { acc.2 with
      partners := acc.2.partners.take 25,
      sectors := acc.2.sectors.take 25,
      recent_projects := acc.2.recent_projects.take 25,
      technologies := pySortedSet (acc.2.technologies
        ++ acc.1.stack_tags.filter (fun t => !(t == ""))) } }

/-- The lead's truthy base URLs (source URLs then website). -/
def baseUrlsOf (l : Lead) : List String :=
  (l.sources.filterMap (fun s => if pyTruthyStr s.source_url then s.source_url else none))
    ++ (if pyTruthyStr l.website then [l.website.getD ""] else [])

/-- The deep pass on one targeted lead: a lead without base URLs is
    skipped (`continue`) before any accumulation or capping. -/
def enrich_deep_lead (l : Lead) (pages : List PageData) : Lead :=
  if baseUrlsOf l = [] then l else enrichDeepLeadBody l pages

/-- The language-list invariant maintained by the deep pass: no
    duplicates, and every entry is a `LANG_HINTS` value. -/
def langInvariant (ls : List String) : Prop :=
  ls.Nodup ∧ ∀ x ∈ ls, x ∈ LANG_CODES

/-- The guarded union preserves the language invariant. -/
theorem langInvariant_unionAppend (ls xs : List String)
    (h : langInvariant ls) (hx : ∀ x ∈ xs, x ∈ LANG_CODES) :
    langInvariant (unionAppend ls xs) := by
  refine ⟨nodup_unionAppend xs ls h.1, ?_⟩
  intro x hmem
  rcases (mem_unionAppend x xs ls).mp hmem with hm | hm
  · exact h.2 x hm
  · exact hx x hm

/-- The page fold preserves the language invariant. -/
theorem foldl_langInvariant : ∀ (pages : List PageData) (acc : Lead × CompanyContext),
    langInvariant acc.2.languages →
    (∀ p ∈ pages, ∀ x ∈ p.langs, x ∈ LANG_CODES) →
    langInvariant ((pages.foldl enrichPageStep acc).2.languages) := by
  intro pages
  induction pages with
  | nil => intro acc h _; exact h
  | cons p rest ih =>
    intro acc h hp
    refine ih (enrichPageStep acc p) ?_ (fun q hq => hp q (by simp [hq]))
    exact langInvariant_unionAppend _ _ h (hp p (by simp))

/-- A duplicate-free list over the 20 language codes has at most 20
    (hence at most 25) entries. -/
theorem langInvariant_length (ls : List String) (h : langInvariant ls) :
    ls.length ≤ 25 := by
  have h1 : ls.toFinset.card = ls.length := List.toFinset_card_of_nodup h.1
  have h2 : ls.toFinset ⊆ LANG_CODES.toFinset := by
    intro x hx
    rw [List.mem_toFinset] at hx ⊢
    exact h.2 x hx
  have h3 := Finset.card_le_card h2
  have h4 : LANG_CODES.toFinset.card ≤ LANG_CODES.length := LANG_CODES.toFinset_card_le
  have h5 : LANG_CODES.length = 20 := rfl
  omega

/-- C7: After a deep-enrichment pass, every targeted lead has at most 50
    contacts and, on its context, at most 25 partners, sectors, recent
    projects and languages — however many pages contributed.  The
    incoming lead is assumed to satisfy the bounds (every lead the
    pipeline builds does), since a lead skipped for lack of base URLs is
    returned untouched; the language bound rests on the invariant that
    language entries are distinct `LANG_HINTS` values. -/
theorem enrich_deep_caps (l : Lead) (pages : List PageData)
    (hctx : ∀ cx, l.context = some cx → langInvariant cx.languages ∧
        cx.partners.length ≤ 25 ∧ cx.sectors.length ≤ 25 ∧
        cx.recent_projects.length ≤ 25 ∧ cx.languages.length ≤ 25)
    (hcontacts : l.contacts.length ≤ 50)
    (hpages : ∀ p ∈ pages, ∀ x ∈ p.langs, x ∈ LANG_CODES) :
    (enrich_deep_lead l pages).contacts.length ≤ 50 ∧
    ∀ cx, (enrich_deep_lead l pages).context = some cx →
      cx.partners.length ≤ 25 ∧ cx.sectors.length ≤ 25 ∧
      cx.recent_projects.length ≤ 25 ∧ cx.languages.length ≤ 25 := by
  unfold enrich_deep_lead
  by_cases hb : baseUrlsOf l = []
  · rw [if_pos hb]
    exact ⟨hcontacts, fun cx hcx => ((hctx cx hcx).2)⟩
  · rw [if_neg hb]
    have hinv0 : langInvariant (l.context.getD {}).languages := by
      cases hc : l.context with
      | none => exact ⟨List.nodup_nil, fun x hx => absurd hx (by simp)⟩
      | some cx => exact (hctx cx hc).1
    have hinv := foldl_langInvariant pages (l, l.context.getD {}) hinv0 hpages
    refine ⟨List.length_take_le _ _, ?_⟩
    intro cx hcx
    rw [enrichDeepLeadBody] at hcx
    simp only [Option.some.injEq] at hcx
    subst hcx
    refine ⟨List.length_take_le _ _, List.length_take_le _ _, List.length_take_le _ _, ?_⟩
    exact langInvariant_length _ hinv

/-- A lead with one base URL and a fresh context, for the C7 witness. -/
def deepDemoLead : Lead :=
  { company_id := "k", company_name := "Acme", country := "DK",
    sources := [{ name := .ETG, strength := 9/10, source_url := some "https://a.example" }] }

/-- A page contributing two languages, for the C7 witness. -/
def deepDemoPage : PageData :=
  { langs := ["EN", "DE"], partners := ["Siemens"], sectors := ["automotive"],
    projectTitles := ["Case: X"] }

/-- Witness for C7 at a concrete lead and page list. -/
theorem enrich_deep_caps_witness :
    (enrich_deep_lead deepDemoLead [deepDemoPage]).contacts.length ≤ 50 ∧
    ∀ cx, (enrich_deep_lead deepDemoLead [deepDemoPage]).context = some cx →
      cx.partners.length ≤ 25 ∧ cx.sectors.length ≤ 25 ∧
      cx.recent_projects.length ≤ 25 ∧ cx.languages.length ≤ 25 :=
  enrich_deep_caps deepDemoLead [deepDemoPage]
    (fun cx hcx => Option.noConfusion hcx)
    (by decide)
    (by intro p hp x hx
        simp only [List.mem_singleton] at hp
        subst hp
        have hx2 : x = "EN" ∨ x = "DE" := by simpa [deepDemoPage] using hx
        rcases hx2 with rfl | rfl
        · decide
        · decide)

/-! ## Job-id handling of the `enrich` and `score` endpoints -/

/-- What an endpoint call leaves behind: the lead store values, the job
    registry, and the response payload. -/
structure EndpointResult where
  leads : List Lead
  jobs : String → Option JobRec
  resp_id : String
  resp_status : String

/-- The endpoints' job handling: `job = JOBS.get(job_id); if job: ...` —
    update the status when the id is known, otherwise touch nothing. -/
def updateJobStatus (jobs : String → Option JobRec) (jid stat : String) :
    String → Option JobRec :=
  fun k => if k = jid then (jobs jid).map (fun j => { j with status := stat }) else jobs k

/-- Model of the `enrich` endpoint.  Its per-lead body (network fetch
    plus HTML parsing, an out-of-scope collaborator in the spec) is
    abstracted as `env`; the iteration over the whole store, the job
    lookup and the response are translated from the code. -/
def enrichEndpoint (env : Lead → Lead) (leads : List Lead)
    (jobs : String → Option JobRec) (jid : String) : EndpointResult :=
  { leads := leads.map env,
    jobs := updateJobStatus jobs jid "enriched",
    resp_id := jid, resp_status := "enriched" }

/-- Model of the `score` endpoint: rescore every lead in the store, then
    update the job if its id is known. -/
def scoreEndpoint (leads : List Lead) (jobs : String → Option JobRec) (jid : String) :
    EndpointResult :=
  { leads := leads.map scoreLead,
    jobs := updateJobStatus jobs jid "scored",
    resp_id := jid, resp_status := "scored" }

/-- C9: Calling `enrich` or `score` with an unknown job id is not
    rejected: the whole store is processed exactly as with any other id,
    the job registry is unchanged (no entry is created), and the response
    reports success ("enriched" / "scored") — no job-not-found error
    exists on these paths. -/
theorem unknown_job_id_not_rejected (env : Lead → Lead) (leads : List Lead)
    (jobs : String → Option JobRec) (jid : String) (h : jobs jid = none) :
    (enrichEndpoint env leads jobs jid).jobs = jobs ∧
    (enrichEndpoint env leads jobs jid).leads = leads.map env ∧
    (∀ jid₂, (enrichEndpoint env leads jobs jid₂).leads
      = (enrichEndpoint env leads jobs jid).leads) ∧
    (enrichEndpoint env leads jobs jid).resp_id = jid ∧
    (enrichEndpoint env leads jobs jid).resp_status = "enriched" ∧
    (scoreEndpoint leads jobs jid).jobs = jobs ∧
    (scoreEndpoint leads jobs jid).leads = leads.map scoreLead ∧
    (∀ jid₂, (scoreEndpoint leads jobs jid₂).leads = (scoreEndpoint leads jobs jid).leads) ∧
    (scoreEndpoint leads jobs jid).resp_id = jid ∧
    (scoreEndpoint leads jobs jid).resp_status = "scored" := by
  have hj : ∀ stat, updateJobStatus jobs jid stat = jobs := by
    intro stat
    funext k
    unfold updateJobStatus
    by_cases hk : k = jid
    · subst hk
      rw [if_pos rfl, h]
      rfl
    · rw [if_neg hk]
  exact ⟨hj _, rfl, fun _ => rfl, rfl, rfl, hj _, rfl, fun _ => rfl, rfl, rfl⟩

/-- Witness for C9 at a concrete empty registry. -/
theorem unknown_job_id_not_rejected_witness :
    (enrichEndpoint id [] (fun _ => none) "missing").jobs = (fun _ => none) ∧
    (enrichEndpoint id [] (fun _ => none) "missing").leads = [].map id ∧
    (∀ jid₂, (enrichEndpoint id [] (fun _ => none) jid₂).leads
      = (enrichEndpoint id [] (fun _ => none) "missing").leads) ∧
    (enrichEndpoint id [] (fun _ => none) "missing").resp_id = "missing" ∧
    (enrichEndpoint id [] (fun _ => none) "missing").resp_status = "enriched" ∧
    (scoreEndpoint [] (fun _ => none) "missing").jobs = (fun _ => none) ∧
    (scoreEndpoint [] (fun _ => none) "missing").leads = [].map scoreLead ∧
    (∀ jid₂, (scoreEndpoint [] (fun _ => none) jid₂).leads
      = (scoreEndpoint [] (fun _ => none) "missing").leads) ∧
    (scoreEndpoint [] (fun _ => none) "missing").resp_id = "missing" ∧
    (scoreEndpoint [] (fun _ => none) "missing").resp_status = "scored" :=
  unknown_job_id_not_rejected id [] (fun _ => none) "missing" rfl

end LeadRadar
